import Mathlib

/-!
Verification development for the `filehyperlink` extension core
(`src/IndexerService.ts` and `src/extension.ts`).

Strings are modelled as `List Char` (JavaScript strings are character
sequences; the repository only ever treats them as such).  The JavaScript
`Map` used for the index is modelled as an association list whose `set`
replaces the first matching key in place (JS `Map.set` keeps the key's
original iteration position) and whose iteration order is list order.
-/

namespace FileHyperlink

/-- A character sequence, the model of a JavaScript string. -/
abbrev Chars := List Char

/-- Model of `vscode.Uri`: only `fsPath` is ever consulted by the code. -/
structure Uri where
  fsPath : Chars
deriving DecidableEq, Repr

/-- Model of `String.prototype.toUpperCase` (ASCII-faithful). -/
def toUpperChars (s : Chars) : Chars :=
  s.map Char.toUpper

/-- Model of `String.prototype.startsWith`: `s` starts with `p`. -/
def startsWithChars : Chars → Chars → Bool
  | _, [] => true
  | [], _ :: _ => false
  | a :: as, b :: bs => a = b && startsWithChars as bs

/-- Model of `String.prototype.includes`: `needle` occurs contiguously in `hay`. -/
def containsChars (hay needle : Chars) : Bool :=
  startsWithChars hay needle ||
    match hay with
    | [] => false
    | _ :: t => containsChars t needle

/-- Model of `String.prototype.endsWith`: `s` ends with `suf`. -/
def endsWithChars (s suf : Chars) : Bool :=
  startsWithChars s.reverse suf.reverse

/-- Last path segment of a path string, as in Node's `path.basename`
(`path.parse(p).base`): everything after the last separator. -/
def baseName (p : Chars) : Chars :=
  (p.reverse.takeWhile (fun c => ¬ (c = '/'))).reverse

/-- Strips the extension from a file base name, as Node's `path.parse` does
for `.name`: drop from the last dot on, unless that dot is the first
character (hidden files like `.gitignore` keep their full name). -/
def stripExt (s : Chars) : Chars :=
  match s.reverse.dropWhile (fun c => ¬ (c = '.')) with
  | [] => s
  | [_] => s
  | _ :: rest => rest.reverse

/-- Model of `path.parse(p).name`: the extension-stripped base name. -/
def parseName (p : Chars) : Chars :=
  stripExt (baseName p)

/-- The index key of a path: `path.parse(p).name.toUpperCase()`
(IndexerService.ts lines 56, 109, 121). -/
def indexKey (p : Chars) : Chars :=
  toUpperChars (parseName p)

/-- The index: a JavaScript `Map<string, vscode.Uri[]>` modelled as an
association list in key-insertion order. -/
abbrev Index := List (Chars × List Uri)

/-- Model of `Map.prototype.has`. -/
def mapHas (m : Index) (k : Chars) : Bool :=
  m.any (fun e => e.1 = k)

/-- Model of `Map.prototype.get` for a `Uri[]` value, with `[]` standing for
a missing key (the code only calls `get` after guaranteeing presence). -/
def mapGet (m : Index) (k : Chars) : List Uri :=
  match m.find? (fun e => e.1 = k) with
  | some e => e.2
  | none => []

/-- Model of `Map.prototype.set`: replaces the value at the first matching
key in place, otherwise appends the pair (JS `Map` iteration order). -/
def mapSet (m : Index) (k : Chars) (v : List Uri) : Index :=
  match m with
  | [] => [(k, v)]
  | e :: t => if e.1 = k then (k, v) :: t else e :: mapSet t k v

/-- Model of `Map.prototype.delete`. -/
def mapDelete (m : Index) (k : Chars) : Index :=
  m.filter (fun e => ¬ (e.1 = k))

/-- One step of the index-population loop of `buildIndex`
(IndexerService.ts lines 54-63): ensure the key's entry exists, then push
the file's Uri onto it. -/
def buildStep (idx : Index) (file : Uri) : Index :=
  let k := indexKey file.fsPath
  let idx1 := if mapHas idx k then idx else mapSet idx k []
  mapSet idx1 k (mapGet idx1 k ++ [file])

/-- The index produced by a full build from the enumerated file list:
`index.clear()` followed by the population loop
(IndexerService.ts lines 40, 54-63). -/
def buildIndexFrom (files : List Uri) : Index :=
  files.foldl buildStep []

/-- The mutable state of `IndexerService` relevant to the claims: the
index map and the `isIndexing` re-entrancy flag. -/
structure IndexerState where
  index : Index
  isIndexing : Bool
deriving DecidableEq, Repr

/-- The terminal state of the body of `buildIndex` once it runs (lines
31-73): the index is cleared and repopulated from the enumerated files,
and the `finally` block resets `isIndexing` to `false`. -/
def finishBuild (files : List Uri) : IndexerState :=
  { index := buildIndexFrom files, isIndexing := false }

/-- A call to `buildIndex` (IndexerService.ts lines 24-74): if a build is
already in progress it returns immediately, leaving the state untouched;
otherwise it runs the build to its terminal state. -/
def buildIndexCall (s : IndexerState) (files : List Uri) : IndexerState :=
  if s.isIndexing then s else finishBuild files

/-- The accumulated `results` array of `query`
(IndexerService.ts lines 82-92): uppercase the search text, then for every
key (in map iteration order) containing it, append that key's Uris. -/
def queryResults (idx : Index) (searchText : Chars) : List Uri :=
  let searchTextUpper := toUpperChars searchText
  idx.foldl
    (fun results e =>
      if containsChars e.1 searchTextUpper then results ++ e.2 else results)
    []

/-- Model of `IndexerService.query` (lines 81-95): `none` models the
`undefined` returned when no match was found. -/
def query (idx : Index) (searchText : Chars) : Option (List Uri) :=
  let results := queryResults idx searchText
  if results.length > 0 then some results else none

/-- The `onDidCreate` watcher handler (IndexerService.ts lines 108-117):
ensure the entry exists, then push the Uri unless one with the same
`fsPath` is already present. -/
def onDidCreate (idx : Index) (uri : Uri) : Index :=
  let fileName := indexKey uri.fsPath
  let idx1 := if mapHas idx fileName then idx else mapSet idx fileName []
  let uris := mapGet idx1 fileName
  if uris.any (fun existingUri => existingUri.fsPath = uri.fsPath) then idx1
  else mapSet idx1 fileName (uris ++ [uri])

/-- The `onDidDelete` watcher handler (IndexerService.ts lines 120-131):
if the key exists, filter out Uris with the deleted path, keeping the
filtered entry when non-empty and deleting the key otherwise. -/
def onDidDelete (idx : Index) (uri : Uri) : Index :=
  let fileName := indexKey uri.fsPath
  if mapHas idx fileName then
    let uris := (mapGet idx fileName).filter
      (fun existingUri => ¬ (existingUri.fsPath = uri.fsPath))
    if uris.length > 0 then mapSet idx fileName uris
    else mapDelete idx fileName
  else idx

/-- Whether a Uri is excluded by the name patterns
(extension.ts lines 99-105): its full base name (with extension) contains
some pattern, case-insensitively. -/
def excludedByName (patterns : List Chars) (uri : Uri) : Bool :=
  patterns.any
    (fun pattern =>
      containsChars (toUpperChars (baseName uri.fsPath)) (toUpperChars pattern))

/-- The name-pattern exclusion step of `provideDefinition`
(extension.ts lines 96-106): filtering only runs when the pattern list is
non-empty. -/
def excludeByName (patterns : List Chars) (allMatches : List Uri) : List Uri :=
  if patterns.length > 0 then
    allMatches.filter (fun uri => ¬ excludedByName patterns uri)
  else allMatches

/-- Whether a Uri's extension-stripped upper-cased base name ends with the
given upper-case suffix (extension.ts lines 115-117). -/
def nameEndsWith (uri : Uri) (suf : Chars) : Bool :=
  endsWithChars (toUpperChars (parseName uri.fsPath)) suf

/-- The tiered prioritization of `provideDefinition`
(extension.ts lines 113-136): `_HOT_SPARK` beats `_HOT` beats the
two-candidate `_SPARK` rule, else all matches are kept. -/
def selectTier (matchedFiles : List Uri) : List Uri :=
  let hotSparkFiles := matchedFiles.filter (fun uri => nameEndsWith uri "_HOT_SPARK".toList)
  let hotFiles := matchedFiles.filter (fun uri => nameEndsWith uri "_HOT".toList)
  let sparkFiles := matchedFiles.filter (fun uri => nameEndsWith uri "_SPARK".toList)
  if hotSparkFiles.length > 0 then hotSparkFiles
  else if hotFiles.length > 0 then hotFiles
  else if matchedFiles.length = 2 && sparkFiles.length > 0 then sparkFiles
  else matchedFiles

/-- The candidate pipeline of `FileDefinitionProvider.provideDefinition`
(extension.ts lines 87-136), from the selected text to the list of files
shown: query the index, drop excluded names, then apply the tiers.
`none` models the `undefined` returned when nothing is found. -/
def provideDefinition (idx : Index) (selectedText : Chars)
    (excludeFilePatterns : List Chars) : Option (List Uri) :=
  match query idx selectedText with
  | none => none
  | some allMatchesFromIndex =>
    let matchedFiles := excludeByName excludeFilePatterns allMatchesFromIndex
    if matchedFiles.length = 0 then none
    else some (selectTier matchedFiles)

/-- The spec's duplicate-path invariant: at most one FileRef per distinct
path under any key's entry. -/
def entryPathsNodup (idx : Index) : Prop :=
  ∀ e ∈ idx, (e.2.map (fun u => u.fsPath)).Nodup

/-- Every Uri stored under a key actually has that key (data-model
invariant: an IndexKey is the upper-cased base name of its files). -/
def keysSound (idx : Index) : Prop :=
  ∀ e ∈ idx, ∀ u ∈ e.2, indexKey u.fsPath = e.1

/-- The spec's "no empty entries" invariant. -/
def noEmptyEntries (idx : Index) : Prop :=
  ∀ e ∈ idx, e.2 ≠ []

/- ### Lemmas about the map model -/

theorem mapSet_cons (e : Chars × List Uri) (t : Index) (k : Chars)
    (v : List Uri) :
    mapSet (e :: t) k v = if e.1 = k then (k, v) :: t else e :: mapSet t k v :=
  rfl

theorem mapGet_cons (e : Chars × List Uri) (t : Index) (k : Chars) :
    mapGet (e :: t) k = if e.1 = k then e.2 else mapGet t k := by
  by_cases h : e.1 = k <;> simp [mapGet, List.find?_cons, h]

theorem mapHas_cons (e : Chars × List Uri) (t : Index) (k : Chars) :
    mapHas (e :: t) k = (decide (e.1 = k) || mapHas t k) := by
  simp [mapHas]

theorem mapGet_mapSet_self (m : Index) (k : Chars) (v : List Uri) :
    mapGet (mapSet m k v) k = v := by
  induction m with
  | nil => simp [mapSet, mapGet]
  | cons e t ih =>
    rw [mapSet_cons]
    by_cases h : e.1 = k
    · rw [if_pos h]
      simp [mapGet_cons]
    · rw [if_neg h]
      simp [mapGet_cons, h, ih]

theorem mapGet_mapSet_ne (m : Index) (k k' : Chars) (v : List Uri)
    (h : k ≠ k') : mapGet (mapSet m k v) k' = mapGet m k' := by
  induction m with
  | nil => simp [mapSet, mapGet, h]
  | cons e t ih =>
    rw [mapSet_cons]
    by_cases he : e.1 = k
    · rw [if_pos he]
      simp [mapGet_cons, h, he]
    · rw [if_neg he]
      by_cases he' : e.1 = k'
      · simp [mapGet_cons, he']
      · simp [mapGet_cons, he', ih]

theorem mapHas_mapSet_self (m : Index) (k : Chars) (v : List Uri) :
    mapHas (mapSet m k v) k = true := by
  induction m with
  | nil => simp [mapSet, mapHas]
  | cons e t ih =>
    rw [mapSet_cons]
    by_cases h : e.1 = k
    · rw [if_pos h]
      simp [mapHas_cons]
    · rw [if_neg h]
      simp [mapHas_cons, h, ih]

theorem mapGet_eq_nil_of_not_has (m : Index) (k : Chars)
    (h : mapHas m k = false) : mapGet m k = [] := by
  have hn : m.find? (fun e => decide (e.1 = k)) = none := by
    rw [List.find?_eq_none]
    intro e he hk
    have hyes : m.any (fun e => decide (e.1 = k)) = true :=
      List.any_eq_true.2 ⟨e, he, hk⟩
    rw [mapHas] at h
    rw [hyes] at h
    exact Bool.true_eq_false.mp h
  simp [mapGet, hn]

theorem mem_of_mem_mapSet (m : Index) (k : Chars) (v : List Uri)
    (e : Chars × List Uri) (h : e ∈ mapSet m k v) :
    e = (k, v) ∨ e ∈ m := by
  induction m with
  | nil => simpa [mapSet] using h
  | cons e' t ih =>
    by_cases he : e'.1 = k
    · simp only [mapSet, he, if_pos] at h
      rcases List.mem_cons.1 h with h | h
      · exact Or.inl h
      · exact Or.inr (List.mem_cons.2 (Or.inr h))
    · simp only [mapSet, he, if_neg, not_false_iff] at h
      rcases List.mem_cons.1 h with h | h
      · exact Or.inr (List.mem_cons.2 (Or.inl h))
      · rcases ih h with h | h
        · exact Or.inl h
        · exact Or.inr (List.mem_cons.2 (Or.inr h))

theorem mem_mapGet (m : Index) (k : Chars) (u : Uri)
    (h : u ∈ mapGet m k) : ∃ e ∈ m, e.1 = k ∧ u ∈ e.2 := by
  unfold mapGet at h
  cases hf : m.find? (fun e => e.1 = k) with
  | none => rw [hf] at h; simp at h
  | some e =>
    rw [hf] at h
    refine ⟨e, List.mem_of_find?_eq_some hf, ?_, h⟩
    have := List.find?_some hf
    simpa using this

theorem mapHas_of_mem (m : Index) (e : Chars × List Uri) (h : e ∈ m) :
    mapHas m e.1 = true := by
  unfold mapHas
  exact List.any_eq_true.2 ⟨e, h, by simp⟩

theorem mapSet_mapGet_self (m : Index) (k : Chars)
    (h : mapHas m k = true) : mapSet m k (mapGet m k) = m := by
  induction m with
  | nil => simp [mapHas] at h
  | cons e t ih =>
    by_cases he : e.1 = k
    · subst he
      simp [mapSet, mapGet, List.find?_cons]
    · have ht : mapHas t k = true := by
        unfold mapHas at h ⊢
        rcases List.any_eq_true.1 h with ⟨e', he', hk⟩
        rcases List.mem_cons.1 he' with rfl | he'
        · simp at hk; exact absurd hk he
        · exact List.any_eq_true.2 ⟨e', he', hk⟩
      have hg : mapGet (e :: t) k = mapGet t k := by
        simp [mapGet, List.find?_cons, he]
      rw [hg]
      simp only [mapSet, he, if_neg, not_false_iff]
      rw [ih ht]

theorem mapHas_mapDelete_self (m : Index) (k : Chars) :
    mapHas (mapDelete m k) k = false := by
  unfold mapHas mapDelete
  rw [Bool.eq_false_iff]
  intro h
  rcases List.any_eq_true.1 h with ⟨e, he, hk⟩
  have := List.of_mem_filter he
  simp at hk this
  exact this hk

theorem mapGet_mapDelete_self (m : Index) (k : Chars) :
    mapGet (mapDelete m k) k = [] := by
  apply mapGet_eq_nil_of_not_has
  exact mapHas_mapDelete_self m k

/- ### Lemmas about the string model -/

theorem startsWithChars_refl (s : Chars) : startsWithChars s s = true := by
  induction s with
  | nil => rfl
  | cons c t ih => simp [startsWithChars, ih]

theorem containsChars_refl (s : Chars) : containsChars s s = true := by
  cases s with
  | nil => rfl
  | cons c t => simp [containsChars, startsWithChars_refl]

theorem containsChars_nil (s : Chars) : containsChars s [] = true := by
  cases s with
  | nil => rfl
  | cons c t => simp [containsChars, startsWithChars]

/- ### Lemmas about query -/

theorem foldl_filterAcc (p : Chars × List Uri → Bool) (idx : Index)
    (acc : List Uri) :
    idx.foldl (fun results e => if p e then results ++ e.2 else results) acc =
      acc ++ ((idx.filter p).map Prod.snd).flatten := by
  induction idx generalizing acc with
  | nil => simp
  | cons e t ih =>
    by_cases h : p e
    · simp [List.foldl_cons, h, ih, List.filter_cons]
    · simp [List.foldl_cons, h, ih, List.filter_cons]

theorem queryResults_eq (idx : Index) (t : Chars) :
    queryResults idx t =
      ((idx.filter fun e => containsChars e.1 (toUpperChars t)).map
        Prod.snd).flatten := by
  unfold queryResults
  rw [foldl_filterAcc (fun e => containsChars e.1 (toUpperChars t)) idx []]
  simp

/- ### Lemmas about the full build -/

theorem mapGet_buildStep (idx : Index) (f : Uri) (k : Chars) :
    mapGet (buildStep idx f) k =
      if indexKey f.fsPath = k then mapGet idx k ++ [f] else mapGet idx k := by
  unfold buildStep
  by_cases hh : mapHas idx (indexKey f.fsPath)
  · simp only [hh, if_pos]
    by_cases hk : indexKey f.fsPath = k
    · subst hk
      rw [mapGet_mapSet_self]
      simp
    · rw [mapGet_mapSet_ne _ _ _ _ hk, if_neg hk]
  · simp only [hh, Bool.false_eq_true, if_neg, not_false_iff]
    by_cases hk : indexKey f.fsPath = k
    · subst hk
      rw [mapGet_mapSet_self, mapGet_mapSet_self,
        mapGet_eq_nil_of_not_has idx _ (Bool.eq_false_iff.2 hh)]
      simp
    · rw [mapGet_mapSet_ne _ _ _ _ hk, mapGet_mapSet_ne _ _ _ _ hk, if_neg hk]

theorem mapGet_foldl_buildStep (fs : List Uri) (idx : Index) (k : Chars) :
    mapGet (fs.foldl buildStep idx) k =
      mapGet idx k ++ fs.filter (fun u => indexKey u.fsPath = k) := by
  induction fs generalizing idx with
  | nil => simp
  | cons f t ih =>
    rw [List.foldl_cons, ih, mapGet_buildStep]
    by_cases h : indexKey f.fsPath = k
    · simp [h, List.filter_cons]
    · simp [h, List.filter_cons]

theorem buildIndexFrom_get (fs : List Uri) (k : Chars) :
    mapGet (buildIndexFrom fs) k =
      fs.filter (fun u => indexKey u.fsPath = k) := by
  unfold buildIndexFrom
  rw [mapGet_foldl_buildStep]
  simp [mapGet]

theorem keys_mapSet (m : Index) (k k' : Chars) (v : List Uri) :
    k' ∈ (mapSet m k v).map Prod.fst ↔ k' ∈ m.map Prod.fst ∨ k' = k := by
  induction m with
  | nil => simp [mapSet]
  | cons e t ih =>
    rw [mapSet_cons]
    by_cases h : e.1 = k
    · rw [if_pos h, ← h]
      simp
      tauto
    · rw [if_neg h]
      simp [ih]
      tauto

theorem nodupKeys_mapSet (m : Index) (k : Chars) (v : List Uri)
    (h : (m.map Prod.fst).Nodup) : ((mapSet m k v).map Prod.fst).Nodup := by
  induction m with
  | nil => simp [mapSet]
  | cons e t ih =>
    rw [mapSet_cons]
    by_cases he : e.1 = k
    · rw [if_pos he]
      simpa [← he] using h
    · rw [if_neg he]
      simp only [List.map_cons, List.nodup_cons] at h ⊢
      obtain ⟨h1, h2⟩ := h
      refine ⟨?_, ih h2⟩
      intro hc
      rcases (keys_mapSet t k e.1 v).1 hc with hc | hc
      · exact h1 hc
      · exact he hc

theorem keysSound_ensure (idx : Index) (k : Chars) (h : keysSound idx) :
    keysSound (mapSet idx k []) := by
  intro e he u hu
  rcases mem_of_mem_mapSet _ _ _ _ he with rfl | he'
  · simp at hu
  · exact h e he' u hu

theorem keysSound_buildStep (idx : Index) (f : Uri) (h : keysSound idx) :
    keysSound (buildStep idx f) := by
  unfold buildStep
  intro e he u hu
  by_cases hh : mapHas idx (indexKey f.fsPath)
  all_goals simp only [hh, Bool.false_eq_true, if_pos, if_neg,
    not_false_iff] at he
  case pos =>
    rcases mem_of_mem_mapSet _ _ _ _ he with rfl | he'
    · simp only at hu
      rcases List.mem_append.1 hu with hu | hu
      · rcases mem_mapGet _ _ _ hu with ⟨e', he', hke', hue'⟩
        have := h e' he' u hue'
        rw [this, hke']
      · simp at hu
        subst hu
        rfl
    · exact h e he' u hu
  case neg =>
    have h1 : keysSound (mapSet idx (indexKey f.fsPath) []) :=
      keysSound_ensure idx _ h
    rcases mem_of_mem_mapSet _ _ _ _ he with rfl | he'
    · simp only at hu
      rcases List.mem_append.1 hu with hu | hu
      · rcases mem_mapGet _ _ _ hu with ⟨e', he', hke', hue'⟩
        have := h1 e' he' u hue'
        rw [this, hke']
      · simp at hu
        subst hu
        rfl
    · exact h1 e he' u hu

theorem nodupKeys_buildStep (idx : Index) (f : Uri)
    (h : (idx.map Prod.fst).Nodup) :
    ((buildStep idx f).map Prod.fst).Nodup := by
  unfold buildStep
  by_cases hh : mapHas idx (indexKey f.fsPath)
  · simp only [hh, if_pos]
    exact nodupKeys_mapSet _ _ _ h
  · simp only [hh, Bool.false_eq_true, if_neg, not_false_iff]
    exact nodupKeys_mapSet _ _ _ (nodupKeys_mapSet _ _ _ h)

theorem keysSound_buildIndexFrom (fs : List Uri) :
    keysSound (buildIndexFrom fs) := by
  have haux : ∀ (l : List Uri) (idx : Index), keysSound idx →
      keysSound (l.foldl buildStep idx) := by
    intro l
    induction l with
    | nil => intro idx h; exact h
    | cons f t ih => intro idx h; exact ih _ (keysSound_buildStep idx f h)
  exact haux fs [] (by intro e he; simp at he)

theorem nodupKeys_buildIndexFrom (fs : List Uri) :
    ((buildIndexFrom fs).map Prod.fst).Nodup := by
  have haux : ∀ (l : List Uri) (idx : Index), (idx.map Prod.fst).Nodup →
      ((l.foldl buildStep idx).map Prod.fst).Nodup := by
    intro l
    induction l with
    | nil => intro idx h; exact h
    | cons f t ih => intro idx h; exact ih _ (nodupKeys_buildStep idx f h)
  exact haux fs [] (by simp)

theorem mapGet_of_mem_nodup (m : Index) (e : Chars × List Uri)
    (hnd : (m.map Prod.fst).Nodup) (he : e ∈ m) : mapGet m e.1 = e.2 := by
  induction m with
  | nil => simp at he
  | cons e' t ih =>
    rcases List.mem_cons.1 he with rfl | he
    · simp [mapGet_cons]
    · rw [mapGet_cons]
      simp only [List.map_cons, List.nodup_cons] at hnd
      obtain ⟨h1, h2⟩ := hnd
      have hne : ¬ (e'.1 = e.1) := by
        intro hc
        apply h1
        rw [hc]
        exact List.mem_map.2 ⟨e, he, rfl⟩
      rw [if_neg hne]
      exact ih h2 he

theorem mem_queryResults_build (fs : List Uri) (u : Uri) (t : Chars) :
    u ∈ queryResults (buildIndexFrom fs) t ↔
      u ∈ fs ∧ containsChars (indexKey u.fsPath) (toUpperChars t) = true := by
  rw [queryResults_eq, List.mem_flatten]
  constructor
  · rintro ⟨l, hl, hu⟩
    rcases List.mem_map.1 hl with ⟨e, he, rfl⟩
    obtain ⟨hem, hcont⟩ := List.mem_filter.1 he
    have hks := keysSound_buildIndexFrom fs e hem u hu
    refine ⟨?_, by rwa [hks]⟩
    have hget := mapGet_of_mem_nodup _ e (nodupKeys_buildIndexFrom fs) hem
    have hmem : u ∈ mapGet (buildIndexFrom fs) e.1 := by
      rw [hget]; exact hu
    rw [buildIndexFrom_get] at hmem
    exact (List.mem_filter.1 hmem).1
  · rintro ⟨hu, hcont⟩
    have hg : u ∈ mapGet (buildIndexFrom fs) (indexKey u.fsPath) := by
      rw [buildIndexFrom_get]
      exact List.mem_filter.2 ⟨hu, by simp⟩
    rcases mem_mapGet _ _ _ hg with ⟨e, he, hk, hue⟩
    refine ⟨e.2, List.mem_map.2 ⟨e, List.mem_filter.2 ⟨he, ?_⟩, rfl⟩, hue⟩
    rw [hk]
    exact hcont

/- ### Lemmas about exclusion and tiering -/

theorem filter_length_pos_iff (p : Uri → Bool) (l : List Uri) :
    0 < (l.filter p).length ↔ ∃ u ∈ l, p u = true := by
  rw [List.length_pos, Ne, List.filter_eq_nil_iff]
  push_neg
  simp

theorem nil_filter_of_all_false (p : Uri → Bool) (l : List Uri)
    (h : ∀ u ∈ l, p u = false) : l.filter p = [] :=
  List.filter_eq_nil_iff.2 (fun a ha => by simp [h a ha])

theorem selectTier_tier1 (ms : List Uri)
    (h : ∃ u ∈ ms, nameEndsWith u "_HOT_SPARK".toList = true) :
    selectTier ms = ms.filter (fun u => nameEndsWith u "_HOT_SPARK".toList) := by
  have hp : 0 < (ms.filter (fun u => nameEndsWith u "_HOT_SPARK".toList)).length :=
    (filter_length_pos_iff _ _).2 h
  simp only [selectTier]
  rw [if_pos hp]

theorem selectTier_tier2 (ms : List Uri)
    (h1 : ∀ u ∈ ms, nameEndsWith u "_HOT_SPARK".toList = false)
    (h : ∃ u ∈ ms, nameEndsWith u "_HOT".toList = true) :
    selectTier ms = ms.filter (fun u => nameEndsWith u "_HOT".toList) := by
  have e1 := nil_filter_of_all_false _ _ h1
  have hp : 0 < (ms.filter (fun u => nameEndsWith u "_HOT".toList)).length :=
    (filter_length_pos_iff _ _).2 h
  simp only [selectTier]
  rw [e1, if_neg (by simp), if_pos hp]

theorem selectTier_tier3 (ms : List Uri)
    (h1 : ∀ u ∈ ms, nameEndsWith u "_HOT_SPARK".toList = false)
    (h2 : ∀ u ∈ ms, nameEndsWith u "_HOT".toList = false)
    (hlen : ms.length = 2)
    (h : ∃ u ∈ ms, nameEndsWith u "_SPARK".toList = true) :
    selectTier ms = ms.filter (fun u => nameEndsWith u "_SPARK".toList) := by
  have e1 := nil_filter_of_all_false _ _ h1
  have e2 := nil_filter_of_all_false _ _ h2
  have hp : 0 < (ms.filter (fun u => nameEndsWith u "_SPARK".toList)).length :=
    (filter_length_pos_iff _ _).2 h
  simp only [selectTier]
  rw [e1, e2, if_neg (by simp), if_neg (by simp)]
  refine if_pos ?_
  simp only [Bool.and_eq_true, decide_eq_true_eq]
  exact ⟨hlen, hp⟩

theorem selectTier_fallback (ms : List Uri)
    (h1 : ∀ u ∈ ms, nameEndsWith u "_HOT_SPARK".toList = false)
    (h2 : ∀ u ∈ ms, nameEndsWith u "_HOT".toList = false)
    (h3 : ¬ (ms.length = 2 ∧ ∃ u ∈ ms, nameEndsWith u "_SPARK".toList = true)) :
    selectTier ms = ms := by
  have e1 := nil_filter_of_all_false _ _ h1
  have e2 := nil_filter_of_all_false _ _ h2
  simp only [selectTier]
  rw [e1, e2, if_neg (by simp), if_neg (by simp)]
  rw [if_neg ?_]
  intro hc
  simp only [Bool.and_eq_true, decide_eq_true_eq] at hc
  obtain ⟨hl, hsp⟩ := hc
  exact h3 ⟨hl, (filter_length_pos_iff _ _).1 hsp⟩

theorem mem_selectTier (l : List Uri) (u : Uri) (h : u ∈ selectTier l) :
    u ∈ l := by
  simp only [selectTier] at h
  split_ifs at h with h1 h2 h3
  · exact (List.mem_filter.1 h).1
  · exact (List.mem_filter.1 h).1
  · exact (List.mem_filter.1 h).1
  · exact h

theorem excludedByName_false_of_mem (pats : List Chars) (l : List Uri)
    (u : Uri) (h : u ∈ excludeByName pats l) :
    excludedByName pats u = false := by
  unfold excludeByName at h
  split_ifs at h with hp
  · have := (List.mem_filter.1 h).2
    simpa using this
  · have hnil : pats = [] := by
      cases pats with
      | nil => rfl
      | cons a t => simp at hp
    subst hnil
    simp [excludedByName]

theorem mem_excludeByName_sub (pats : List Chars) (l : List Uri)
    (u : Uri) (h : u ∈ excludeByName pats l) : u ∈ l := by
  unfold excludeByName at h
  split_ifs at h with hp
  · exact (List.mem_filter.1 h).1
  · exact h

theorem entryPathsNodup_mapGet (idx : Index) (k : Chars)
    (h : entryPathsNodup idx) :
    ((mapGet idx k).map (fun u => u.fsPath)).Nodup := by
  cases hf : idx.find? (fun e => e.1 = k) with
  | none => simp [mapGet, hf]
  | some e =>
    have he : e ∈ idx := List.mem_of_find?_eq_some hf
    have hn := h e he
    simp only [mapGet, hf]
    exact hn

theorem filter_key_eq_of_nodup (m : Index) (e : Chars × List Uri)
    (hnd : (m.map Prod.fst).Nodup) (he : e ∈ m) :
    m.filter (fun x => x.1 = e.1) = [e] := by
  induction m with
  | nil => simp at he
  | cons e' t ih =>
    simp only [List.map_cons, List.nodup_cons] at hnd
    obtain ⟨h1, h2⟩ := hnd
    rcases List.mem_cons.1 he with rfl | he
    · rw [List.filter_cons]
      have hrest : t.filter (fun x => x.1 = e.1) = [] := by
        apply List.filter_eq_nil_iff.2
        intro x hx
        simp only [decide_eq_true_eq]
        intro hc
        apply h1
        rw [← hc]
        exact List.mem_map.2 ⟨x, hx, rfl⟩
      simp [hrest]
    · rw [List.filter_cons]
      have hne : ¬ (e'.1 = e.1) := by
        intro hc
        apply h1
        rw [hc]
        exact List.mem_map.2 ⟨e, he, rfl⟩
      simp [hne, ih h2 he]

/- ### Claim theorems -/

/-- C1: `selectTier` applies the tiers in strict priority order: if some
candidate's extension-stripped upper-cased name ends with `_HOT_SPARK`, the
result is exactly those; otherwise, if some ends with `_HOT`, exactly
those; otherwise, if there are exactly two candidates and at least one
ends with `_SPARK`, exactly the `_SPARK` subset; otherwise the candidate
list is returned unchanged. -/
theorem selectTier_strict_priority (ms : List Uri) :
    ((∃ u ∈ ms, nameEndsWith u "_HOT_SPARK".toList = true) →
      selectTier ms = ms.filter (fun u => nameEndsWith u "_HOT_SPARK".toList)) ∧
    ((∀ u ∈ ms, nameEndsWith u "_HOT_SPARK".toList = false) →
      (∃ u ∈ ms, nameEndsWith u "_HOT".toList = true) →
      selectTier ms = ms.filter (fun u => nameEndsWith u "_HOT".toList)) ∧
    ((∀ u ∈ ms, nameEndsWith u "_HOT_SPARK".toList = false) →
      (∀ u ∈ ms, nameEndsWith u "_HOT".toList = false) →
      ms.length = 2 →
      (∃ u ∈ ms, nameEndsWith u "_SPARK".toList = true) →
      selectTier ms = ms.filter (fun u => nameEndsWith u "_SPARK".toList)) ∧
    ((∀ u ∈ ms, nameEndsWith u "_HOT_SPARK".toList = false) →
      (∀ u ∈ ms, nameEndsWith u "_HOT".toList = false) →
      (¬ (ms.length = 2 ∧ ∃ u ∈ ms, nameEndsWith u "_SPARK".toList = true)) →
      selectTier ms = ms) :=
  ⟨selectTier_tier1 ms,
   fun h1 h => selectTier_tier2 ms h1 h,
   fun h1 h2 hl h => selectTier_tier3 ms h1 h2 hl h,
   fun h1 h2 h3 => selectTier_fallback ms h1 h2 h3⟩

/-- Witness for C1: on the single candidate `/X_HOT_SPARK.sql` the first
tier applies and keeps it. -/
theorem selectTier_strict_priority_witness :
    selectTier [Uri.mk "/X_HOT_SPARK.sql".toList] =
      List.filter (fun u => nameEndsWith u "_HOT_SPARK".toList)
        [Uri.mk "/X_HOT_SPARK.sql".toList] :=
  (selectTier_strict_priority [Uri.mk "/X_HOT_SPARK.sql".toList]).1
    ⟨Uri.mk "/X_HOT_SPARK.sql".toList, by decide, by decide⟩

/-- C2 counterexample: the files `/a.sql` and `/ab.sql` have the pairwise
distinct IndexKeys `A` and `AB`, under key `A` exactly `/a.sql` is
indexed, yet querying with the key `A` also returns `/ab.sql`, a FileRef
indexed under the other key — because matching is by substring, not by
key equality. -/
theorem query_crosses_distinct_keys :
    indexKey (Uri.mk "/a.sql".toList).fsPath = ['A'] ∧
    indexKey (Uri.mk "/ab.sql".toList).fsPath = ['A', 'B'] ∧
    mapGet (buildIndexFrom [Uri.mk "/a.sql".toList, Uri.mk "/ab.sql".toList])
      ['A'] = [Uri.mk "/a.sql".toList] ∧
    query (buildIndexFrom [Uri.mk "/a.sql".toList, Uri.mk "/ab.sql".toList])
      ['A'] =
      some [Uri.mk "/a.sql".toList, Uri.mk "/ab.sql".toList] := by
  decide

/-- C2 amended: for an index with pairwise distinct (upper-case) keys,
querying with a key `k` that is contained in no other key returns exactly
the FileRefs indexed under `k` and no others. -/
theorem query_exact_when_no_substring_keys (idx : Index) (k : Chars)
    (hnd : (idx.map Prod.fst).Nodup)
    (hupper : toUpperChars k = k)
    (hhas : mapHas idx k = true)
    (hne : mapGet idx k ≠ [])
    (hother : ∀ e ∈ idx, e.1 ≠ k → containsChars e.1 k = false) :
    query idx k = some (mapGet idx k) := by
  obtain ⟨e, he, hk⟩ : ∃ e ∈ idx, e.1 = k := by
    unfold mapHas at hhas
    rcases List.any_eq_true.1 hhas with ⟨e, he, hk⟩
    exact ⟨e, he, by simpa using hk⟩
  subst hk
  have hget : mapGet idx e.1 = e.2 := mapGet_of_mem_nodup idx e hnd he
  have hfil : idx.filter (fun x => containsChars x.1 (toUpperChars e.1)) =
      idx.filter (fun x => x.1 = e.1) := by
    apply List.filter_congr
    intro x hx
    rw [hupper]
    by_cases hc : x.1 = e.1
    · rw [hc]
      simp [containsChars_refl]
    · simp [hother x hx hc, hc]
  rw [hget] at hne
  simp only [query, queryResults_eq, hfil,
    filter_key_eq_of_nodup idx e hnd he, List.map_cons, List.map_nil,
    List.flatten_cons, List.flatten_nil, List.append_nil]
  rw [if_pos (List.length_pos.2 hne), hget]

/-- Witness for C2 amended: a two-key index with keys `A` and `BC`;
querying `A` returns exactly the entry under `A`. -/
theorem query_exact_when_no_substring_keys_witness :
    query [(['A'], [Uri.mk "/a.sql".toList]), (['B', 'C'], [Uri.mk "/bc.sql".toList])]
      ['A'] = some (mapGet [(['A'], [Uri.mk "/a.sql".toList]),
        (['B', 'C'], [Uri.mk "/bc.sql".toList])] ['A']) :=
  query_exact_when_no_substring_keys _ ['A'] (by decide) (by decide)
    (by decide) (by decide) (by decide)

/-- C3: query matching is substring-based and case-insensitive: a FileRef
of a built index is in the raw query result iff the upper-cased search
text occurs in the file's upper-cased extension-stripped base name; the
result concatenates the matching keys' entries in key iteration order,
preserving within-key insertion order; `orders_report.sql` is found by
`REPORT` and by `report` but not by the superstring `reporting`. -/
theorem query_substring_case_insensitive :
    (∀ (fs : List Uri) (u : Uri) (t : Chars), t ≠ [] →
      (u ∈ queryResults (buildIndexFrom fs) t ↔
        u ∈ fs ∧ containsChars (indexKey u.fsPath) (toUpperChars t) = true)) ∧
    (∀ (idx : Index) (t : Chars),
      queryResults idx t =
        ((idx.filter fun e => containsChars e.1 (toUpperChars t)).map
          Prod.snd).flatten) ∧
    query (buildIndexFrom [Uri.mk "/x/orders_report.sql".toList])
      "REPORT".toList = some [Uri.mk "/x/orders_report.sql".toList] ∧
    query (buildIndexFrom [Uri.mk "/x/orders_report.sql".toList])
      "report".toList = some [Uri.mk "/x/orders_report.sql".toList] ∧
    query (buildIndexFrom [Uri.mk "/x/orders_report.sql".toList])
      "reporting".toList = none := by
  refine ⟨?_, ?_, by decide, by decide, by decide⟩
  · intro fs u t _
    exact mem_queryResults_build fs u t
  · intro idx t
    exact queryResults_eq idx t

/-- Witness for C3: the membership characterization instantiated at the
`orders_report.sql` example with search text `REPORT`. -/
theorem query_substring_case_insensitive_witness :
    Uri.mk "/x/orders_report.sql".toList ∈
        queryResults (buildIndexFrom [Uri.mk "/x/orders_report.sql".toList])
          "REPORT".toList ↔
      Uri.mk "/x/orders_report.sql".toList ∈
          [Uri.mk "/x/orders_report.sql".toList] ∧
        containsChars (indexKey (Uri.mk "/x/orders_report.sql".toList).fsPath)
          (toUpperChars "REPORT".toList) = true :=
  query_substring_case_insensitive.1 [Uri.mk "/x/orders_report.sql".toList]
    (Uri.mk "/x/orders_report.sql".toList) "REPORT".toList (by decide)

/-- C4: when the (upper-cased) search text is contained in no index key,
the query returns the uniform no-match result: the accumulated result
sequence is empty and the returned value is the no-match value (`none`,
modelling the code's `undefined`) — the function is total, so absence of
a match never raises an error. -/
theorem query_no_match_empty (idx : Index) (t : Chars)
    (h : ∀ e ∈ idx, containsChars e.1 (toUpperChars t) = false) :
    queryResults idx t = [] ∧ query idx t = none := by
  have hq : queryResults idx t = [] := by
    rw [queryResults_eq]
    have hfil : idx.filter (fun e => containsChars e.1 (toUpperChars t)) = [] := by
      apply List.filter_eq_nil_iff.2
      intro e he
      simp [h e he]
    rw [hfil]
    simp
  refine ⟨hq, ?_⟩
  simp [query, hq]

/-- Witness for C4: a one-file index queried with text `Z` that no key
contains. -/
theorem query_no_match_empty_witness :
    queryResults (buildIndexFrom [Uri.mk "/a.sql".toList]) "Z".toList = [] ∧
    query (buildIndexFrom [Uri.mk "/a.sql".toList]) "Z".toList = none :=
  query_no_match_empty _ _ (by decide)

/-- C5: exclusion precedes tiering in `provideDefinition`: when exclusion
leaves nothing the result is `none` and no tier runs; otherwise the tiers
are applied to exactly the post-exclusion set; and no file of the final
result matches an exclude pattern — even one that would qualify for
Tier 1 is removed first. -/
theorem provideDefinition_exclusion_first (idx : Index) (t : Chars)
    (pats : List Chars) (allMatches : List Uri)
    (hq : query idx t = some allMatches) :
    (excludeByName pats allMatches = [] →
      provideDefinition idx t pats = none) ∧
    (excludeByName pats allMatches ≠ [] →
      provideDefinition idx t pats =
        some (selectTier (excludeByName pats allMatches))) ∧
    (∀ r, provideDefinition idx t pats = some r →
      ∀ u ∈ r, excludedByName pats u = false) := by
  refine ⟨?_, ?_, ?_⟩
  · intro h
    simp [provideDefinition, hq, h]
  · intro h
    simp only [provideDefinition, hq]
    rw [if_neg (by simpa [List.length_eq_zero] using h)]
  · intro r hr u hu
    simp only [provideDefinition, hq] at hr
    split_ifs at hr with hz
    obtain rfl : selectTier (excludeByName pats allMatches) = r :=
      Option.some.inj hr
    exact excludedByName_false_of_mem pats allMatches u
      (mem_selectTier _ _ hu)

/-- Witness for C5: querying `AB` over `/AB_HOT_SPARK.hql` and
`/AB_CHK.hql` with exclude pattern `_CHK.hql`: the result is the tiers
applied to the post-exclusion set. -/
theorem provideDefinition_exclusion_first_witness :
    provideDefinition
        (buildIndexFrom [Uri.mk "/AB_HOT_SPARK.hql".toList,
          Uri.mk "/AB_CHK.hql".toList])
        "AB".toList ["_CHK.hql".toList] =
      some (selectTier (excludeByName ["_CHK.hql".toList]
        [Uri.mk "/AB_HOT_SPARK.hql".toList, Uri.mk "/AB_CHK.hql".toList])) :=
  (provideDefinition_exclusion_first _ _ _ _ (by decide)).2.1 (by decide)

/-- The Uri pushed by the create handler is recorded: afterwards some
FileRef with the created path sits under the path's key. -/
theorem mapGet_onDidCreate_has_path (idx : Index) (u : Uri) :
    ∃ u' ∈ mapGet (onDidCreate idx u) (indexKey u.fsPath),
      u'.fsPath = u.fsPath := by
  simp only [onDidCreate]
  by_cases hh : mapHas idx (indexKey u.fsPath)
  · simp only [hh, if_pos]
    by_cases hany : (mapGet idx (indexKey u.fsPath)).any
        (fun e => e.fsPath = u.fsPath) = true
    · rw [if_pos hany]
      rcases List.any_eq_true.1 hany with ⟨u', hu', hp⟩
      exact ⟨u', hu', by simpa using hp⟩
    · rw [if_neg hany, mapGet_mapSet_self]
      exact ⟨u, by simp, rfl⟩
  · simp only [hh, Bool.false_eq_true, if_neg, not_false_iff]
    rw [mapGet_mapSet_self]
    by_cases hany : (([] : List Uri)).any (fun e => e.fsPath = u.fsPath) = true
    · simp at hany
    · rw [if_neg hany, mapGet_mapSet_self]
      exact ⟨u, by simp, rfl⟩

/-- When a FileRef with the created path is already indexed under its key,
the create handler leaves the index unchanged. -/
theorem onDidCreate_noop_of_path_present (idx : Index) (u : Uri)
    (h : ∃ u' ∈ mapGet idx (indexKey u.fsPath), u'.fsPath = u.fsPath) :
    onDidCreate idx u = idx := by
  obtain ⟨u', hu', hp⟩ := h
  have hhas : mapHas idx (indexKey u.fsPath) = true := by
    rcases mem_mapGet _ _ _ hu' with ⟨e, he, hk, _⟩
    have := mapHas_of_mem idx e he
    rwa [hk] at this
  have hany : (mapGet idx (indexKey u.fsPath)).any
      (fun e => e.fsPath = u.fsPath) = true :=
    List.any_eq_true.2 ⟨u', hu', by simp [hp]⟩
  simp only [onDidCreate, hhas, if_pos, hany, if_true]

/-- C6: the create handler is idempotent per path: applying it twice for
the same Uri equals applying it once, and applying it when a FileRef with
the same path already exists under the key is a no-op — no duplicate
FileRef is ever appended. -/
theorem onDidCreate_idempotent (idx : Index) (u : Uri) :
    onDidCreate (onDidCreate idx u) u = onDidCreate idx u ∧
    ((∃ u' ∈ mapGet idx (indexKey u.fsPath), u'.fsPath = u.fsPath) →
      onDidCreate idx u = idx) :=
  ⟨onDidCreate_noop_of_path_present _ u (mapGet_onDidCreate_has_path idx u),
   onDidCreate_noop_of_path_present idx u⟩

/-- Witness for C6: creating `/a.sql` when it is already indexed leaves
the index unchanged. -/
theorem onDidCreate_idempotent_witness :
    onDidCreate [(['A'], [Uri.mk "/a.sql".toList])] (Uri.mk "/a.sql".toList)
      = [(['A'], [Uri.mk "/a.sql".toList])] :=
  (onDidCreate_idempotent [(['A'], [Uri.mk "/a.sql".toList])]
      (Uri.mk "/a.sql".toList)).2
    ⟨Uri.mk "/a.sql".toList, by decide, by decide⟩

/-- A key that is present always names an entry of the map, whose value
`mapGet` returns. -/
theorem mapGet_entry_of_has (m : Index) (k : Chars)
    (h : mapHas m k = true) :
    ∃ e ∈ m, e.1 = k ∧ mapGet m k = e.2 := by
  unfold mapHas at h
  cases hf : m.find? (fun e => e.1 = k) with
  | none =>
    rw [List.find?_eq_none] at hf
    rcases List.any_eq_true.1 h with ⟨e, he, hk⟩
    exact absurd hk (hf e he)
  | some e =>
    refine ⟨e, List.mem_of_find?_eq_some hf,
      by simpa using List.find?_some hf, ?_⟩
    simp [mapGet, hf]

/-- C7: the delete handler removes every FileRef carrying the deleted path
from the entry under the path's key; if nothing remains, the key itself is
deleted; and for a path present nowhere in a well-formed index the
handler leaves the index unchanged (and, being total, raises no error). -/
theorem onDidDelete_spec (idx : Index) (uri : Uri) :
    (∀ u ∈ mapGet (onDidDelete idx uri) (indexKey uri.fsPath),
      u.fsPath ≠ uri.fsPath) ∧
    (mapHas idx (indexKey uri.fsPath) = true →
      (mapGet idx (indexKey uri.fsPath)).filter
          (fun u => ¬ (u.fsPath = uri.fsPath)) = [] →
      mapHas (onDidDelete idx uri) (indexKey uri.fsPath) = false) ∧
    (noEmptyEntries idx →
      (∀ e ∈ idx, ∀ u ∈ e.2, u.fsPath ≠ uri.fsPath) →
      onDidDelete idx uri = idx) := by
  refine ⟨?_, ?_, ?_⟩
  · intro u hu
    simp only [onDidDelete] at hu
    by_cases hh : mapHas idx (indexKey uri.fsPath)
    · rw [if_pos hh] at hu
      by_cases hl : ((mapGet idx (indexKey uri.fsPath)).filter
          (fun x => ¬ (x.fsPath = uri.fsPath))).length > 0
      · rw [if_pos hl, mapGet_mapSet_self] at hu
        have := (List.mem_filter.1 hu).2
        simpa using this
      · rw [if_neg hl, mapGet_mapDelete_self] at hu
        simp at hu
    · rw [if_neg (by simpa using hh)] at hu
      rw [mapGet_eq_nil_of_not_has idx _ (Bool.eq_false_iff.2 hh)] at hu
      simp at hu
  · intro hh hfil
    simp only [onDidDelete]
    rw [if_pos hh, hfil]
    rw [if_neg (by simp)]
    exact mapHas_mapDelete_self idx _
  · intro hne habs
    simp only [onDidDelete]
    by_cases hh : mapHas idx (indexKey uri.fsPath)
    · rw [if_pos hh]
      obtain ⟨e, he, hk, hget⟩ := mapGet_entry_of_has idx _ hh
      have hfil : (mapGet idx (indexKey uri.fsPath)).filter
          (fun x => ¬ (x.fsPath = uri.fsPath)) =
          mapGet idx (indexKey uri.fsPath) := by
        apply List.filter_eq_self.2
        intro x hx
        rw [hget] at hx
        simpa using habs e he x hx
      rw [hfil]
      have hlen : (mapGet idx (indexKey uri.fsPath)).length > 0 := by
        rw [hget]
        exact List.length_pos.2 (hne e he)
      rw [if_pos hlen]
      exact mapSet_mapGet_self idx _ hh
    · rw [if_neg (by simpa using hh)]

/-- Witness for C7: deleting `/a.sql` when only `/b.sql` is indexed (under
key `B`) leaves the index unchanged. -/
theorem onDidDelete_spec_witness :
    onDidDelete [(['B'], [Uri.mk "/b.sql".toList])] (Uri.mk "/a.sql".toList)
      = [(['B'], [Uri.mk "/b.sql".toList])] :=
  (onDidDelete_spec [(['B'], [Uri.mk "/b.sql".toList])]
      (Uri.mk "/a.sql".toList)).2.2 (by unfold noEmptyEntries; decide)
    (by decide)

/-- C8: if the in-progress flag is set, a `buildIndex` call is a no-op —
it returns immediately with the state (index map and flag) unchanged —
and the eventual state once the in-progress run finishes is exactly the
state a single run produces. -/
theorem buildIndexCall_reentrant (s : IndexerState) (files files2 : List Uri)
    (h : s.isIndexing = true) :
    buildIndexCall s files2 = s ∧
    finishBuild files =
      buildIndexCall { index := s.index, isIndexing := false } files := by
  constructor
  · simp [buildIndexCall, h]
  · simp [buildIndexCall, finishBuild]

/-- Witness for C8: the no-op on a concrete in-progress state. -/
theorem buildIndexCall_reentrant_witness :
    buildIndexCall ⟨[], true⟩ [Uri.mk "/b.sql".toList] = ⟨[], true⟩ ∧
    finishBuild [Uri.mk "/a.sql".toList] =
      buildIndexCall ⟨[], false⟩ [Uri.mk "/a.sql".toList] :=
  buildIndexCall_reentrant ⟨[], true⟩ [Uri.mk "/a.sql".toList]
    [Uri.mk "/b.sql".toList] rfl

/-- An entry padded in by `mapSet _ _ []` keeps the duplicate-path
invariant. -/
theorem entryPathsNodup_ensure (idx : Index) (k : Chars)
    (h : entryPathsNodup idx) : entryPathsNodup (mapSet idx k []) := by
  intro e he
  rcases mem_of_mem_mapSet _ _ _ _ he with rfl | he'
  · simp
  · exact h e he'

/-- Pushing a Uri whose path is not yet under the key keeps the
duplicate-path invariant. -/
theorem entryPathsNodup_push (idx1 : Index) (k : Chars) (u : Uri)
    (h1 : entryPathsNodup idx1)
    (hany : ((mapGet idx1 k).any (fun e => e.fsPath = u.fsPath)) = false) :
    entryPathsNodup (mapSet idx1 k (mapGet idx1 k ++ [u])) := by
  intro e he
  rcases mem_of_mem_mapSet _ _ _ _ he with rfl | he'
  · simp only [List.map_append, List.map_cons, List.map_nil]
    rw [List.nodup_append]
    refine ⟨entryPathsNodup_mapGet _ _ h1, by simp, ?_⟩
    intro p hp
    rcases List.mem_map.1 hp with ⟨x, hx, rfl⟩
    have hx2 : ¬ (x.fsPath = u.fsPath) := by
      intro hc
      have hyes : (mapGet idx1 k).any (fun e => e.fsPath = u.fsPath) = true :=
        List.any_eq_true.2 ⟨x, hx, by simpa using hc⟩
      rw [hyes] at hany
      exact Bool.true_eq_false.mp hany
    simp [hx2]
  · exact h1 e he'

/-- C9 counterexample: the full build deduplicates nothing, so an
enumeration that yields the same path twice produces an entry holding two
FileRefs with the same path, violating the invariant. -/
theorem buildIndexFrom_duplicate_paths :
    mapGet (buildIndexFrom [Uri.mk "/a.sql".toList, Uri.mk "/a.sql".toList])
        ['A'] = [Uri.mk "/a.sql".toList, Uri.mk "/a.sql".toList] ∧
    ¬ ((mapGet (buildIndexFrom
        [Uri.mk "/a.sql".toList, Uri.mk "/a.sql".toList]) ['A']).map
          (fun u => u.fsPath)).Nodup := by
  decide

/-- C9 amended: the at-most-one-FileRef-per-path invariant is preserved by
the full build whenever the enumerated file list repeats no path, and
unconditionally by the incremental create and delete handlers. -/
theorem pathsNodup_preserved :
    (∀ fs : List Uri, (fs.map (fun u => u.fsPath)).Nodup →
      entryPathsNodup (buildIndexFrom fs)) ∧
    (∀ (idx : Index) (u : Uri), entryPathsNodup idx →
      entryPathsNodup (onDidCreate idx u)) ∧
    (∀ (idx : Index) (u : Uri), entryPathsNodup idx →
      entryPathsNodup (onDidDelete idx u)) := by
  refine ⟨?_, ?_, ?_⟩
  · intro fs hnd e he
    have hget := mapGet_of_mem_nodup _ e (nodupKeys_buildIndexFrom fs) he
    rw [← hget, buildIndexFrom_get]
    exact List.Nodup.sublist ((List.filter_sublist fs).map _) hnd
  · intro idx u h
    simp only [onDidCreate]
    split
    · split
      · exact h
      · rename_i hany
        exact entryPathsNodup_push idx _ u h (Bool.eq_false_iff.2 hany)
    · split
      · exact entryPathsNodup_ensure idx _ h
      · rename_i hany
        exact entryPathsNodup_push (mapSet idx _ []) _ u
          (entryPathsNodup_ensure idx _ h) (Bool.eq_false_iff.2 hany)
  · intro idx u h
    simp only [onDidDelete]
    split
    · split
      · intro e he
        rcases mem_of_mem_mapSet _ _ _ _ he with rfl | he'
        · exact List.Nodup.sublist ((List.filter_sublist _).map _)
            (entryPathsNodup_mapGet idx _ h)
        · exact h e he'
      · intro e he
        exact h e (List.mem_of_mem_filter he)
    · exact h

/-- Witness for C9 amended: building from the duplicate-free list
`[/a.sql]` satisfies the invariant. -/
theorem pathsNodup_preserved_witness :
    entryPathsNodup (buildIndexFrom [Uri.mk "/a.sql".toList]) :=
  pathsNodup_preserved.1 [Uri.mk "/a.sql".toList] (by decide)

/-- C10: querying the empty string matches every key (the empty string is
a substring of any key), so the result concatenates all the index's
FileRefs in key iteration order — and is the no-match result exactly when
the index is empty (given the no-empty-entries invariant). -/
theorem query_empty_text (idx : Index) (h : noEmptyEntries idx) :
    query idx [] =
      if idx = [] then none else some ((idx.map Prod.snd).flatten) := by
  have hfil : idx.filter (fun e => containsChars e.1 (toUpperChars [])) = idx := by
    apply List.filter_eq_self.2
    intro e he
    simpa [toUpperChars] using containsChars_nil e.1
  have hq : queryResults idx [] = (idx.map Prod.snd).flatten := by
    rw [queryResults_eq, hfil]
  cases idx with
  | nil => simp [query, queryResults]
  | cons e t =>
    have he2 : e.2 ≠ [] := h e (List.mem_cons_self e t)
    simp only [query, hq]
    rw [if_pos ?hp]
    · simp
    case hp =>
      simp only [List.map_cons, List.flatten_cons, List.length_append]
      have := List.length_pos.2 he2
      omega

/-- Witness for C10: the empty query over a one-file index returns that
file. -/
theorem query_empty_text_witness :
    query (buildIndexFrom [Uri.mk "/a.sql".toList]) [] =
      if buildIndexFrom [Uri.mk "/a.sql".toList] = [] then none
      else some (((buildIndexFrom [Uri.mk "/a.sql".toList]).map
        Prod.snd).flatten) :=
  query_empty_text _ (by unfold noEmptyEntries; decide)

end FileHyperlink
